import Mathlib

/-!
Shallow embedding of `src/driver/LKM/src/util.c` (Elkeid LKM utility layer):
the kallsyms symbol resolver, the backward path reconstructor
(`prepend` / `smith_dentry_path`), the superblock uuid locator and the
one-at-a-time 64-bit murmur hash.

Modelling conventions:
 - a caller-supplied byte buffer `char *buf` of size `buflen` is a
   `List Nat` whose length is the capacity; a pointer into it is the
   offset from `buf`;
 - C `int` counters that may go negative (`buflen` inside `prepend`) are
   `Int`; sizes and offsets that stay non-negative are `Nat`;
 - 64-bit unsigned arithmetic is `Nat` reduced `% 2^64` where the C
   operation wraps;
 - a dentry chain is the list of component names from the leaf up to
   (excluding) the root: `[]` is a root dentry (`IS_ROOT(dentry)` holds
   immediately); `ERR_PTR(-ENAMETOOLONG)` is `none`.
-/

namespace Elkeid

/-! ### Byte-buffer primitives -/

/-- `memcpy(buf + pos, str, str.length)`: overwrite `str.length` bytes of
`buf` starting at offset `pos`. -/
def listWrite (buf : List Nat) (pos : Nat) (str : List Nat) : List Nat :=
  buf.take pos ++ str ++ buf.drop (pos + str.length)

/-- Result of `prepend`: the (possibly updated) buffer contents, the new
`end` cursor offset, the new remaining-length counter (decremented even on
failure, as in the C source), and whether `-ENAMETOOLONG` was returned. -/
structure PrependResult where
  buf : List Nat
  pos : Nat
  buflen : Int
  err : Bool
  deriving Repr, DecidableEq

/-- `static int prepend(char **buffer, int *buflen, const char *str, int namelen)`
from util.c: decrement `*buflen` by `namelen`; if it went negative return
`-ENAMETOOLONG`; otherwise move `*buffer` back by `namelen` and `memcpy` the
bytes there. `namelen` is `str.length` (every C call site passes the exact
byte count of `str`). -/
def prepend (buf : List Nat) (pos : Nat) (buflen : Int) (str : List Nat) :
    PrependResult :=
  let buflen' := buflen - (str.length : Int)
  if buflen' < 0 then
    ⟨buf, pos, buflen', true⟩
  else
    ⟨listWrite buf (pos - str.length) str, pos - str.length, buflen', false⟩

/-! ### smith_dentry_path -/

/-- The `while (!IS_ROOT(dentry))` loop of `smith_dentry_path`: for each
non-root dentry, `prepend_name` its name, then prepend `"/"` (ASCII 47);
either failure exits through `Elong` (`none`); on success `retval` is moved
to the new `end` and the walk continues at the parent. -/
def dpath_loop :
    List (List Nat) → List Nat → Nat → Int → Nat → Option (Nat × List Nat)
  | [], buf, _pos, _buflen, retval => some (retval, buf)
  | name :: rest, buf, pos, buflen, _retval =>
    let r1 := prepend buf pos buflen name
    if r1.err then none
    else
      let r2 := prepend r1.buf r1.pos r1.buflen [47]
      if r2.err then none
      else dpath_loop rest r2.buf r2.pos r2.buflen r2.pos

/-- `char *smith_dentry_path(struct dentry *dentry, char *buf, int buflen)`:
start with `end = buf + buflen`; prepend the single byte `"\0"`; fail if the
remaining length dropped below 1; write a provisional `'/'` at `end - 1`;
run the parent walk. Success returns the offset of the path start together
with the final buffer contents; `ERR_PTR(-ENAMETOOLONG)` is `none`. -/
def smith_dentry_path (dentry : List (List Nat)) (buf : List Nat) :
    Option (Nat × List Nat) :=
  let r1 := prepend buf buf.length (buf.length : Int) [0]
  if r1.buflen < 1 then none
  else
    let retval := r1.pos - 1
    let buf2 := listWrite r1.buf retval [47]
    dpath_loop dentry buf2 r1.pos r1.buflen retval

/-- Bytes the walk itself consumes for a chain: each name plus one `'/'`
separator (`L + d` for depth `d` and total name length `L`). -/
def needed (l : List (List Nat)) : Nat :=
  (l.map (fun n => n.length + 1)).sum

/-- The path string (without its NUL terminator) that the walk lays down
for a chain given leaf-first: `/name1/name2/.../nameD` with `name1` the
outermost (root-side) component. -/
def expectedPath : List (List Nat) → List Nat
  | [] => []
  | name :: rest => expectedPath rest ++ 47 :: name

/-! ### smith_query_sb_uuid -/

/-- Build-time facts about the target kernel ABI: the byte offset of the
field `smith_query_sb_uuid` points at (`offsetof(struct super_block, s_uuid)`,
or `s_dev` on pre-2.6.39 kernels). Fixed for the life of a build. -/
structure BuildConfig where
  s_uuid_offset : Nat
  deriving Repr, DecidableEq

/-- A `struct super_block` as this code sees it: a base address and opaque
field contents stored by the OS. -/
structure SuperBlock where
  base : Nat
  contents : List Nat
  deriving Repr, DecidableEq

/-- `u8 *smith_query_sb_uuid(struct super_block *sb)`: pure address
arithmetic `(u8 *)sb + offsetof(...)`, no branching on the descriptor. -/
def smith_query_sb_uuid (cfg : BuildConfig) (sb : SuperBlock) : Nat :=
  sb.base + cfg.s_uuid_offset

/-! ### hash_murmur_OAAT64 -/

def MURMUR_SEED : Nat := 525201411107845655

def MURMUR_MULT : Nat := 0x5bd1e9955bd1e995

/-- The C cast `(uint64_t)(s[i])` where `s` is `char *`: on the module's
x86-64 kernel targets `char` is signed, so a stored byte `b ≥ 0x80` is the
negative char value `b - 256` and the cast sign-extends it to 64 bits. -/
def charCastU64 (b : Nat) : Nat :=
  if b < 128 then b else 2 ^ 64 - 256 + b

/-- One iteration of the hash loop:
`h ^= (uint64_t)(s[i]); h *= 0x5bd1e9955bd1e995; h ^= h >> 47;`. -/
def murmurStep (h : Nat) (b : Nat) : Nat :=
  let h1 := h ^^^ charCastU64 b
  let h2 := h1 * MURMUR_MULT % 2 ^ 64
  h2 ^^^ h2 >>> 47

/-- `uint64_t hash_murmur_OAAT64(char *s, int len)`: fold `murmurStep` over
the first `len` stored bytes (the loop `for (i = 0; i < len; i++)` reads
nothing when `len <= 0`). -/
def hash_murmur_OAAT64 (s : List Nat) (len : Int) : Nat :=
  (s.take len.toNat).foldl murmurStep MURMUR_SEED

/-- The hashing loop exactly as the specification words it: XOR *the byte*
(a value in `0..255`, zero-extended) into the accumulator, multiply by the
odd constant, XOR with the right-shift by 47. Used to compare the
spec-described algorithm against the code. -/
def specHashStep (h : Nat) (b : Nat) : Nat :=
  let h1 := h ^^^ b
  let h2 := h1 * MURMUR_MULT % 2 ^ 64
  h2 ^^^ h2 >>> 47

/-- The whole hash as the specification describes it (seed, then
`specHashStep` per byte of the first `len` bytes). -/
def spec_hash (s : List Nat) (len : Int) : Nat :=
  (s.take len.toNat).foldl specHashStep MURMUR_SEED

/-- The spec-described hash amended by the one fact the code forces: each
byte enters the accumulator sign-extended from the target's signed `char`. -/
def spec_hash_sext (s : List Nat) (len : Int) : Nat :=
  (s.take len.toNat).foldl (fun h b => specHashStep h (charCastU64 b)) MURMUR_SEED

/-! ### Symbol resolver (indirect, kprobe-based branch) -/

/-- `static unsigned long get_kallsyms_func(void)`: register a kprobe on
`"kallsyms_lookup_name"`; if `register_kprobe` returned nonzero, return 0;
otherwise return the probed address. `regRet`/`probeAddr` are what the
kernel's kprobe facility produced for this registration attempt. -/
def get_kallsyms_func (regRet : Int) (probeAddr : Nat) : Nat :=
  if regRet ≠ 0 then 0 else probeAddr

/-- The module-wide static
`unsigned long (*kallsyms_lookup_name_sym)(const char *name)`;
`0` (a null pointer) is the uninitialized state, as in the C source. -/
structure ResolverState where
  kallsyms_lookup_name_sym : Nat
  deriving Repr, DecidableEq

/-- The kernel environment the resolver interacts with: per registration
attempt `k`, the `register_kprobe` return code and the probed address; and
the behaviour of calling the internal `kallsyms_lookup_name` routine at an
address with a symbol name. -/
structure KernelEnv where
  regRet : Nat → Int
  probeAddr : Nat → Nat
  call : Nat → List Nat → Nat

/-- `unsigned long smith_kallsyms_lookup_name(const char *name)` (the
`>= 5.7` / `< 2.6.33` branch): if the singleton cache is null, run
`get_kallsyms_func` (registration attempt number `k`); if still null return
0; otherwise call through the cached function pointer. Returns the result,
the new cache state, and whether the registration path was invoked. -/
def smith_kallsyms_lookup_name (env : KernelEnv) (s : ResolverState)
    (name : List Nat) (k : Nat) : Nat × ResolverState × Bool :=
  if s.kallsyms_lookup_name_sym = 0 then
    let addr := get_kallsyms_func (env.regRet k) (env.probeAddr k)
    if addr = 0 then (0, ⟨0⟩, true)
    else (env.call addr name, ⟨addr⟩, true)
  else (env.call s.kallsyms_lookup_name_sym name, s, false)

/-- A run of successive `smith_kallsyms_lookup_name` calls: threads the
cache state and the registration-attempt counter, collecting for each call
its return value and whether it invoked the registration path. -/
def resolverRun (env : KernelEnv) :
    List (List Nat) → ResolverState → Nat → List (Nat × Bool) × ResolverState
  | [], s, _ => ([], s)
  | name :: rest, s, k =>
    let (r, s', invoked) := smith_kallsyms_lookup_name env s name k
    let k' := if invoked then k + 1 else k
    let (out, sFin) := resolverRun env rest s' k'
    ((r, invoked) :: out, sFin)

/-! ### Buffer lemmas -/

theorem listWrite_length (buf str : List Nat) (pos : Nat)
    (h : pos + str.length ≤ buf.length) :
    (listWrite buf pos str).length = buf.length := by
  unfold listWrite
  rw [List.length_append, List.length_append, List.length_take,
    List.length_drop]
  omega

theorem listWrite_drop (buf str : List Nat) (pos : Nat)
    (h : pos ≤ buf.length) :
    (listWrite buf pos str).drop pos = str ++ buf.drop (pos + str.length) := by
  unfold listWrite
  rw [List.append_assoc]
  exact List.drop_left' (by rw [List.length_take]; exact Nat.min_eq_left h)

theorem listWrite_drop_ge (buf str : List Nat) (pos k : Nat)
    (hk : pos + str.length ≤ k) (hb : pos ≤ buf.length) :
    (listWrite buf pos str).drop k = buf.drop k := by
  unfold listWrite
  have h1 : (buf.take pos ++ str).length = pos + str.length := by
    rw [List.length_append, List.length_take]
    rw [Nat.min_eq_left hb]
  rw [List.drop_append_eq_append_drop]
  rw [List.drop_eq_nil_of_le (by rw [h1]; omega)]
  rw [List.nil_append, h1, List.drop_drop]
  congr 1
  omega

theorem prepend_ok (buf str : List Nat) (pos : Nat) (h : str.length ≤ pos) :
    prepend buf pos (pos : Int) str =
      ⟨listWrite buf (pos - str.length) str, pos - str.length,
        ((pos - str.length : Nat) : Int), false⟩ := by
  unfold prepend
  have h1 : ¬ ((pos : Int) - (str.length : Int) < 0) := by omega
  simp only [h1, if_false]
  have h2 : (pos : Int) - (str.length : Int) = ((pos - str.length : Nat) : Int) := by
    omega
  rw [h2]

theorem prepend_fail (buf str : List Nat) (pos : Nat) (buflen : Int)
    (h : buflen < (str.length : Int)) :
    prepend buf pos buflen str = ⟨buf, pos, buflen - str.length, true⟩ := by
  unfold prepend
  have h1 : buflen - (str.length : Int) < 0 := by omega
  simp only [h1, if_true]

/-! ### Loop invariants for the dentry walk -/

theorem needed_nil : needed [] = 0 := rfl

theorem needed_cons (name : List Nat) (rest : List (List Nat)) :
    needed (name :: rest) = name.length + 1 + needed rest := by
  simp only [needed, List.map_cons, List.sum_cons]

theorem expectedPath_length (l : List (List Nat)) :
    (expectedPath l).length = needed l := by
  induction l with
  | nil => rfl
  | cons name rest ih =>
    rw [expectedPath, needed_cons, List.length_append, List.length_cons, ih]
    omega

theorem dpath_loop_ok (l : List (List Nat)) :
    ∀ (buf : List Nat) (pos r : Nat),
      pos ≤ buf.length → needed l ≤ pos →
      ∃ buf', dpath_loop l buf pos (pos : Int) r
          = some (if l.isEmpty then r else pos - needed l, buf')
        ∧ buf'.length = buf.length
        ∧ buf'.drop (pos - needed l) = expectedPath l ++ buf.drop pos := by
  induction l with
  | nil =>
    intro buf pos r _ _
    exact ⟨buf, rfl, rfl, by simp [needed_nil, expectedPath]⟩
  | cons name rest ih =>
    intro buf pos r hpos hneed
    rw [needed_cons] at hneed
    have hname : name.length ≤ pos := by omega
    simp only [dpath_loop, prepend_ok buf name pos hname]
    set pos1 := pos - name.length with hpos1
    have hone : (1 : Nat) ≤ pos1 := by omega
    have hstep2 : prepend (listWrite buf pos1 name) pos1 (pos1 : Int) [47] =
        ⟨listWrite (listWrite buf pos1 name) (pos1 - 1) [47], pos1 - 1,
          ((pos1 - 1 : Nat) : Int), false⟩ :=
      prepend_ok _ _ _ (by simpa using hone)
    simp only [hstep2, Bool.false_eq_true, if_false]
    set buf1 := listWrite buf pos1 name with hbuf1
    set buf2 := listWrite buf1 (pos1 - 1) [47] with hbuf2
    have hlen1 : buf1.length = buf.length :=
      listWrite_length buf name pos1 (by omega)
    have hlen2 : buf2.length = buf.length := by
      rw [hbuf2, listWrite_length buf1 [47] (pos1 - 1) (by simp; omega), hlen1]
    have hdrop1 : buf1.drop pos1 = name ++ buf.drop pos := by
      rw [hbuf1, listWrite_drop buf name pos1 (by omega)]
      congr 2
      omega
    have hdrop2 : buf2.drop (pos1 - 1) = 47 :: (name ++ buf.drop pos) := by
      rw [hbuf2, listWrite_drop buf1 [47] (pos1 - 1) (by omega)]
      have h47 : pos1 - 1 + [47].length = pos1 := by simp; omega
      rw [h47, hdrop1, List.singleton_append]
    obtain ⟨buf', hrun, hlen', hdrop'⟩ :=
      ih buf2 (pos1 - 1) (pos1 - 1) (by omega) (by omega)
    have hfirst : (if rest.isEmpty then pos1 - 1 else pos1 - 1 - needed rest)
        = pos - needed (name :: rest) := by
      rw [needed_cons]
      cases rest with
      | nil => rw [needed_nil]; simp; omega
      | cons a b => simp only [List.isEmpty_cons, Bool.false_eq_true, if_false]; omega
    refine ⟨buf', ?_, by rw [hlen', hlen2], ?_⟩
    · rw [hrun, hfirst]
      simp only [List.isEmpty_cons, Bool.false_eq_true, if_false]
    · rw [hdrop2] at hdrop'
      have harith : pos1 - 1 - needed rest = pos - needed (name :: rest) := by
        rw [needed_cons]; omega
      rw [harith] at hdrop'
      rw [hdrop', expectedPath]
      simp

theorem dpath_loop_fail (l : List (List Nat)) :
    ∀ (buf : List Nat) (pos r : Nat), l ≠ [] → pos < needed l →
      dpath_loop l buf pos (pos : Int) r = none := by
  induction l with
  | nil => intro _ _ _ h _; exact absurd rfl h
  | cons name rest ih =>
    intro buf pos r _ hlt
    rw [needed_cons] at hlt
    by_cases hname : (pos : Int) < (name.length : Int)
    · simp [dpath_loop, prepend_fail buf name pos (pos : Int) hname]
    · have hname' : name.length ≤ pos := by omega
      simp only [dpath_loop, prepend_ok buf name pos hname']
      set pos1 := pos - name.length with hpos1
      by_cases hz : ((pos1 : Nat) : Int) < ((1 : Nat) : Int)
      · have hp2 := prepend_fail (listWrite buf pos1 name) [47] pos1 (pos1 : Int)
          (by simpa using hz)
        simp [hp2]
      · have hone : (1 : Nat) ≤ pos1 := by omega
        have hstep2 := prepend_ok (listWrite buf pos1 name) [47] pos1
          (by simpa using hone)
        simp only [hstep2, Bool.false_eq_true, if_false]
        have hrest : rest ≠ [] := by
          intro hr
          subst hr
          rw [needed_nil] at hlt
          omega
        have hlt' : pos1 - 1 < needed rest := by omega
        exact ih _ (pos1 - 1) (pos1 - 1) hrest hlt'

/-! ### Top-level facts about smith_dentry_path -/

theorem needed_pos (l : List (List Nat)) (hl : l ≠ []) : 1 ≤ needed l := by
  cases l with
  | nil => exact absurd rfl hl
  | cons a b => rw [needed_cons]; omega

theorem smith_dentry_path_cons_ok (l : List (List Nat)) (buf0 : List Nat)
    (hl : l ≠ []) (hcap : needed l + 1 ≤ buf0.length) :
    ∃ b, smith_dentry_path l buf0 = some (buf0.length - 1 - needed l, b)
      ∧ b.length = buf0.length
      ∧ b.drop (buf0.length - 1 - needed l) = expectedPath l ++ [0] := by
  have hn1 : 1 ≤ needed l := needed_pos l hl
  set cap := buf0.length with hcap0
  have hp := prepend_ok buf0 [0] cap (by simp; omega)
  simp only [smith_dentry_path, ← hcap0, hp, List.length_singleton]
  have hc : ¬(((cap - 1 : Nat) : Int) < 1) := by omega
  simp only [hc, if_false]
  set buf1 := listWrite buf0 (cap - 1) [0] with hbuf1
  set buf2 := listWrite buf1 (cap - 1 - 1) [47] with hbuf2
  have hlen1 : buf1.length = cap := by
    rw [hbuf1, listWrite_length buf0 [0] (cap - 1) (by simp; omega), hcap0]
  have hlen2 : buf2.length = cap := by
    rw [hbuf2, listWrite_length buf1 [47] (cap - 1 - 1) (by simp; omega), hlen1]
  have hdrop1 : buf1.drop (cap - 1) = [0] := by
    rw [hbuf1, listWrite_drop buf0 [0] (cap - 1) (by omega)]
    have : cap - 1 + [0].length = cap := by simp; omega
    rw [this, List.drop_eq_nil_of_le (by omega), List.append_nil]
  have hdrop2 : buf2.drop (cap - 1) = [0] := by
    rw [hbuf2, listWrite_drop_ge buf1 [47] (cap - 1 - 1) (cap - 1)
      (by simp; omega) (by omega), hdrop1]
  obtain ⟨b, hrun, hlen, hdrop⟩ :=
    dpath_loop_ok l buf2 (cap - 1) (cap - 1 - 1) (by omega) (by omega)
  have hempty : l.isEmpty = false := by
    cases l with
    | nil => exact absurd rfl hl
    | cons a b => rfl
  refine ⟨b, ?_, by rw [hlen, hlen2], ?_⟩
  · rw [hrun, hempty]
    have : cap - 1 - needed l = cap - 1 - needed l := rfl
    simp only [Bool.false_eq_true, if_false]
  · rw [hdrop, hdrop2]

theorem smith_dentry_path_root_ok (buf0 : List Nat) (h : 2 ≤ buf0.length) :
    ∃ b, smith_dentry_path [] buf0 = some (buf0.length - 2, b)
      ∧ b.length = buf0.length ∧ b.drop (buf0.length - 2) = [47, 0] := by
  set cap := buf0.length with hcap0
  have hp := prepend_ok buf0 [0] cap (by simp; omega)
  simp only [smith_dentry_path, ← hcap0, hp, List.length_singleton]
  have hc : ¬(((cap - 1 : Nat) : Int) < 1) := by omega
  simp only [hc, if_false]
  set buf1 := listWrite buf0 (cap - 1) [0] with hbuf1
  set buf2 := listWrite buf1 (cap - 1 - 1) [47] with hbuf2
  have hlen1 : buf1.length = cap := by
    rw [hbuf1, listWrite_length buf0 [0] (cap - 1) (by simp; omega), hcap0]
  have hlen2 : buf2.length = cap := by
    rw [hbuf2, listWrite_length buf1 [47] (cap - 1 - 1) (by simp; omega), hlen1]
  have hdrop1 : buf1.drop (cap - 1) = [0] := by
    rw [hbuf1, listWrite_drop buf0 [0] (cap - 1) (by omega)]
    have : cap - 1 + [0].length = cap := by simp; omega
    rw [this, List.drop_eq_nil_of_le (by omega), List.append_nil]
  have hdrop2 : buf2.drop (cap - 1 - 1) = [47, 0] := by
    rw [hbuf2, listWrite_drop buf1 [47] (cap - 1 - 1) (by omega)]
    have : cap - 1 - 1 + [47].length = cap - 1 := by simp; omega
    rw [this, hdrop1]
    rfl
  have hretval : cap - 1 - 1 = cap - 2 := by omega
  refine ⟨buf2, ?_, hlen2, by rw [← hretval, hdrop2]⟩
  simp only [dpath_loop, hretval]

theorem smith_dentry_path_root_fail (buf0 : List Nat) (h : buf0.length < 2) :
    smith_dentry_path [] buf0 = none := by
  by_cases h0 : buf0.length = 0
  · have hp := prepend_fail buf0 [0] buf0.length (buf0.length : Int)
      (by simp [h0])
    simp only [smith_dentry_path, hp]
    have hc : ((buf0.length : Int) - ([0].length : Int)) < 1 := by
      simp [h0]
    simp only [hc, if_true]
  · have h1 : buf0.length = 1 := by omega
    have hp := prepend_ok buf0 [0] buf0.length (by simp [h1])
    simp only [smith_dentry_path, hp]
    have hc : (((buf0.length - [0].length : Nat) : Int)) < 1 := by
      simp [h1]
    simp only [hc, if_true]

theorem smith_dentry_path_cons_fail (l : List (List Nat)) (buf0 : List Nat)
    (hl : l ≠ []) (h : buf0.length < needed l + 1) :
    smith_dentry_path l buf0 = none := by
  by_cases h0 : buf0.length = 0
  · have hp := prepend_fail buf0 [0] buf0.length (buf0.length : Int)
      (by simp [h0])
    simp only [smith_dentry_path, hp]
    have hc : ((buf0.length : Int) - ([0].length : Int)) < 1 := by
      simp [h0]
    simp only [hc, if_true]
  · by_cases h2 : buf0.length = 1
    · have hp := prepend_ok buf0 [0] buf0.length (by simp [h2])
      simp only [smith_dentry_path, hp]
      have hc : (((buf0.length - [0].length : Nat) : Int)) < 1 := by
        simp [h2]
      simp only [hc, if_true]
    · have hge : 2 ≤ buf0.length := by omega
      have hp := prepend_ok buf0 [0] buf0.length (by simp; omega)
      simp only [smith_dentry_path, hp]
      have hc : ¬((((buf0.length - [0].length : Nat) : Int)) < 1) := by
        simp
        omega
      simp only [hc, if_false]
      exact dpath_loop_fail l _ _ _ hl (by simp; omega)

/-! ### Hash lemmas: every per-byte step of the loop is a bijection of the
64-bit accumulator, so single-byte changes propagate to the output. -/

theorem xor_lt_64 (x y : Nat) (hx : x < 2 ^ 64) (hy : y < 2 ^ 64) :
    x ^^^ y < 2 ^ 64 :=
  @Nat.bitwise_lt bne x y 64 hx hy

theorem shiftRight_xor_distrib (x y n : Nat) :
    (x ^^^ y) >>> n = x >>> n ^^^ y >>> n := by
  apply Nat.eq_of_testBit_eq
  intro i
  simp [Nat.testBit_shiftRight, Nat.testBit_xor]

theorem mix_invol (x : Nat) (hx : x < 2 ^ 64) :
    (x ^^^ x >>> 47) ^^^ (x ^^^ x >>> 47) >>> 47 = x := by
  rw [shiftRight_xor_distrib]
  have h94 : x >>> 47 >>> 47 = 0 := by
    rw [← Nat.shiftRight_add, Nat.shiftRight_eq_div_pow]
    exact Nat.div_eq_of_lt
      (lt_of_lt_of_le hx (Nat.pow_le_pow_right (by norm_num) (by norm_num)))
  rw [h94, Nat.xor_zero]
  exact Nat.xor_cancel_right _ _

theorem mix_inj (x y : Nat) (hx : x < 2 ^ 64) (hy : y < 2 ^ 64)
    (h : x ^^^ x >>> 47 = y ^^^ y >>> 47) : x = y := by
  have h1 := mix_invol x hx
  rw [h, mix_invol y hy] at h1
  exact h1.symm

theorem pow64_gcd_mult : Nat.gcd (2 ^ 64) MURMUR_MULT = 1 :=
  Nat.Coprime.pow_left 64 (Nat.coprime_two_left.mpr (Nat.odd_iff.mpr (by decide)))

theorem mulmod_cancel (x y : Nat) (hx : x < 2 ^ 64) (hy : y < 2 ^ 64)
    (h : x * MURMUR_MULT % 2 ^ 64 = y * MURMUR_MULT % 2 ^ 64) : x = y := by
  have hmod : x ≡ y [MOD 2 ^ 64] :=
    Nat.ModEq.cancel_right_of_coprime pow64_gcd_mult h
  have h2 : x % 2 ^ 64 = y % 2 ^ 64 := hmod
  rwa [Nat.mod_eq_of_lt hx, Nat.mod_eq_of_lt hy] at h2

theorem charCastU64_lt (b : Nat) (hb : b < 256) : charCastU64 b < 2 ^ 64 := by
  unfold charCastU64
  split <;> omega

theorem charCastU64_inj (b1 b2 : Nat) (hb1 : b1 < 256) (hb2 : b2 < 256)
    (h : charCastU64 b1 = charCastU64 b2) : b1 = b2 := by
  by_cases c1 : b1 < 128 <;> by_cases c2 : b2 < 128 <;>
    simp only [charCastU64, c1, c2, if_true, if_false] at h <;> omega

theorem murmurStep_lt (h b : Nat) : murmurStep h b < 2 ^ 64 := by
  simp only [murmurStep]
  apply xor_lt_64
  · exact Nat.mod_lt _ (by norm_num)
  · exact lt_of_le_of_lt
      (by rw [Nat.shiftRight_eq_div_pow]; exact Nat.div_le_self _ _)
      (Nat.mod_lt _ (by norm_num))

theorem murmurStep_inj_acc (h1 h2 b : Nat) (hh1 : h1 < 2 ^ 64)
    (hh2 : h2 < 2 ^ 64) (hb : b < 256)
    (he : murmurStep h1 b = murmurStep h2 b) : h1 = h2 := by
  simp only [murmurStep] at he
  have hcb : charCastU64 b < 2 ^ 64 := charCastU64_lt b hb
  have hxy := mix_inj _ _ (Nat.mod_lt _ (by norm_num))
    (Nat.mod_lt _ (by norm_num)) he
  have hxor := mulmod_cancel _ _ (xor_lt_64 _ _ hh1 hcb)
    (xor_lt_64 _ _ hh2 hcb) hxy
  have hc := congrArg (fun z => z ^^^ charCastU64 b) hxor
  simpa [Nat.xor_cancel_right] using hc

theorem murmurStep_ne_of_byte_ne (h b1 b2 : Nat) (hh : h < 2 ^ 64)
    (hb1 : b1 < 256) (hb2 : b2 < 256) (hne : b1 ≠ b2) :
    murmurStep h b1 ≠ murmurStep h b2 := by
  intro he
  apply hne
  simp only [murmurStep] at he
  have hc1 : charCastU64 b1 < 2 ^ 64 := charCastU64_lt b1 hb1
  have hc2 : charCastU64 b2 < 2 ^ 64 := charCastU64_lt b2 hb2
  have hxy := mix_inj _ _ (Nat.mod_lt _ (by norm_num))
    (Nat.mod_lt _ (by norm_num)) he
  have hxor := mulmod_cancel _ _ (xor_lt_64 _ _ hh hc1)
    (xor_lt_64 _ _ hh hc2) hxy
  have hcc := congrArg (fun z => h ^^^ z) hxor
  simp only [Nat.xor_cancel_left] at hcc
  exact charCastU64_inj b1 b2 hb1 hb2 hcc

theorem foldl_murmur_lt (l : List Nat) :
    ∀ h : Nat, h < 2 ^ 64 → l.foldl murmurStep h < 2 ^ 64 := by
  induction l with
  | nil => intro h hh; simpa using hh
  | cons b rest ih =>
    intro h hh
    simpa using ih (murmurStep h b) (murmurStep_lt h b)

theorem foldl_murmur_ne (l : List Nat) : (∀ b ∈ l, b < 256) →
    ∀ x y : Nat, x < 2 ^ 64 → y < 2 ^ 64 → x ≠ y →
    l.foldl murmurStep x ≠ l.foldl murmurStep y := by
  induction l with
  | nil => intro _ x y _ _ hne; simpa using hne
  | cons b rest ih =>
    intro hl x y hx hy hne
    simp only [List.foldl_cons]
    refine ih (fun c hc => hl c (List.mem_cons_of_mem _ hc)) _ _
      (murmurStep_lt x b) (murmurStep_lt y b) ?_
    intro he
    exact hne (murmurStep_inj_acc x y b hx hy (hl b (List.mem_cons_self _ _)) he)

theorem hash_full (s : List Nat) :
    hash_murmur_OAAT64 s (s.length : Int) = s.foldl murmurStep MURMUR_SEED := by
  unfold hash_murmur_OAAT64
  rw [Int.toNat_natCast, List.take_length]

/-! ### Sanity checks on concrete inputs (model vs. a hand trace of the C) -/

example :
    smith_dentry_path [[102, 111, 111]] [9, 9, 9, 9, 9] =
      some (0, [47, 102, 111, 111, 0]) := by decide

example :
    smith_dentry_path [[102, 111, 111]] [9, 9, 9, 9] = none := by decide

example : smith_dentry_path [] [9, 9] = some (0, [47, 0]) := by decide

example : smith_dentry_path [] [9] = none := by decide

example :
    smith_dentry_path [[97], [98]] [9, 9, 9, 9, 9, 9] =
      some (1, [9, 47, 98, 47, 97, 0]) := by decide

example : hash_murmur_OAAT64 [1, 2, 3] 0 = MURMUR_SEED := by decide

example : hash_murmur_OAAT64 [] 0 = 525201411107845655 := by decide

/-! ### Resolver run lemma -/

theorem resolverRun_cached (env : KernelEnv) (a : Nat) (ha : a ≠ 0) :
    ∀ (names : List (List Nat)) (k : Nat),
      resolverRun env names ⟨a⟩ k =
        (names.map (fun n => (env.call a n, false)), ⟨a⟩) := by
  intro names
  induction names with
  | nil => intro k; rfl
  | cons n rest ih =>
    intro k
    simp only [resolverRun, smith_kallsyms_lookup_name, ha, if_false, ih,
      List.map_cons]

/-! ## Claim theorems -/

/-- C1: for every non-root dentry chain (depth `d ≥ 1`) whose names have total
byte length `L` (so `needed l = L + d`), `smith_dentry_path` with buffer
capacity at least `L + d + 1` succeeds and returns, at offset
`capacity - 1 - (L + d)`, the NUL-terminated string `/name1/.../nameD` with
the names ordered root-first; and with capacity exactly `L + d` it fails with
the length-exceeded sentinel. -/
theorem C1_path_capacity_bound (l : List (List Nat)) (bufA bufB : List Nat)
    (hl : l ≠ []) (hA : needed l + 1 ≤ bufA.length)
    (hB : bufB.length = needed l) :
    (∃ b, smith_dentry_path l bufA = some (bufA.length - 1 - needed l, b)
      ∧ b.length = bufA.length
      ∧ b.drop (bufA.length - 1 - needed l) = expectedPath l ++ [0])
    ∧ smith_dentry_path l bufB = none :=
  ⟨smith_dentry_path_cons_ok l bufA hl hA,
   smith_dentry_path_cons_fail l bufB hl (by omega)⟩

/-- C1 witness: the chain `[[97]]` (path `/a`, `L = 1`, `d = 1`): capacity 3
succeeds with the string `/a` plus terminator, capacity 2 fails. -/
theorem C1_witness :
    (∃ b, smith_dentry_path [[97]] [9, 9, 9] = some (0, b)
      ∧ b.length = 3 ∧ b.drop 0 = [47, 97, 0])
    ∧ smith_dentry_path [[97]] [9, 9] = none :=
  C1_path_capacity_bound [[97]] [9, 9, 9] [9, 9] (by decide) (by decide)
    (by decide)

/-- C2 counterexample: the claim says the code XORs *the byte* into the
accumulator, but for the stored byte `0x80` the C expression
`(uint64_t)(s[i])` sign-extends the (signed) `char`, so the code disagrees
with the spec-described algorithm on the one-byte input `[0x80]`. -/
theorem C2_counterexample :
    hash_murmur_OAAT64 [128] 1 ≠ spec_hash [128] 1 := by decide

/-- C2 (amended): `hash_murmur_OAAT64 s n` equals the spec algorithm with each
byte entering the accumulator sign-extended from the target's signed `char`
(bytes ≥ 0x80 contribute their 64-bit sign extension); it reads exactly the
first `n` bytes (the result depends only on them), and for `n = 0` the seed
constant is returned unchanged. -/
theorem C2_hash_algorithm (s t : List Nat) (n : Int) :
    hash_murmur_OAAT64 s n = spec_hash_sext s n
    ∧ (s.take n.toNat = t.take n.toNat →
        hash_murmur_OAAT64 s n = hash_murmur_OAAT64 t n)
    ∧ (n = 0 → hash_murmur_OAAT64 s n = MURMUR_SEED) := by
  refine ⟨rfl, ?_, ?_⟩
  · intro h
    unfold hash_murmur_OAAT64
    rw [h]
  · intro h
    subst h
    rfl

/-- C2 witness: the amended algorithm agreement, the first-n-bytes dependency
and the empty-input seed on concrete inputs. -/
theorem C2_witness :
    hash_murmur_OAAT64 [200, 1] 2 = spec_hash_sext [200, 1] 2
    ∧ hash_murmur_OAAT64 [200, 1] 2 = hash_murmur_OAAT64 [200, 1, 77] 2
    ∧ hash_murmur_OAAT64 [200, 1] 0 = MURMUR_SEED :=
  ⟨(C2_hash_algorithm [200, 1] [200, 1, 77] 2).1,
   (C2_hash_algorithm [200, 1] [200, 1, 77] 2).2.1 (by decide),
   (C2_hash_algorithm [200, 1] [200, 1, 77] 0).2.2 rfl⟩

/-- C3: once the resolver's singleton cache holds a nonzero address, every
subsequent `smith_kallsyms_lookup_name` call returns the cached address
invoked as a function pointer on the queried name, leaves the cache unchanged
and never re-invokes the kprobe-registration path (`get_kallsyms_func` /
`register_kprobe`): its invocation flag is `false` on every call of any
subsequent run. -/
theorem C3_cached_resolution (env : KernelEnv) (a : Nat)
    (names : List (List Nat)) (name : List Nat) (k k' : Nat) (ha : a ≠ 0) :
    smith_kallsyms_lookup_name env ⟨a⟩ name k' = (env.call a name, ⟨a⟩, false)
    ∧ (resolverRun env names ⟨a⟩ k).1 =
        names.map (fun n => (env.call a n, false))
    ∧ (resolverRun env names ⟨a⟩ k).2 = ⟨a⟩ := by
  refine ⟨by simp [smith_kallsyms_lookup_name, ha], ?_, ?_⟩
  · rw [resolverRun_cached env a ha names k]
  · rw [resolverRun_cached env a ha names k]

/-- C3 witness: a concrete environment and a cached address 7; two further
calls both call through the cache and never re-register. -/
theorem C3_witness :
    smith_kallsyms_lookup_name
        ⟨fun _ => 0, fun _ => 5, fun a n => a + n.length⟩ ⟨7⟩ [1] 3
      = (8, ⟨7⟩, false)
    ∧ (resolverRun ⟨fun _ => 0, fun _ => 5, fun a n => a + n.length⟩
        [[1], [2, 2]] ⟨7⟩ 0).1 = [(8, false), (9, false)]
    ∧ (resolverRun ⟨fun _ => 0, fun _ => 5, fun a n => a + n.length⟩
        [[1], [2, 2]] ⟨7⟩ 0).2 = ⟨7⟩ :=
  C3_cached_resolution ⟨fun _ => 0, fun _ => 5, fun a n => a + n.length⟩ 7
    [[1], [2, 2]] [1] 0 3 (by decide)

/-- C5: if kprobe registration fails, `smith_kallsyms_lookup_name` returns the
not-found sentinel 0 and the cache stays uninitialized (null); the
registration path was attempted (so it is lazily retried: a later call from
the same uninitialized state attempts registration again, and succeeds when
the kernel lets it, caching the probed address); no error beyond the zero
result is produced. -/
theorem C5_registration_failure (env : KernelEnv) (k k' : Nat)
    (name name' : List Nat) (hfail : env.regRet k ≠ 0) :
    smith_kallsyms_lookup_name env ⟨0⟩ name k = (0, ⟨0⟩, true)
    ∧ (env.regRet k' = 0 → env.probeAddr k' ≠ 0 →
        smith_kallsyms_lookup_name env ⟨0⟩ name' k' =
          (env.call (env.probeAddr k') name', ⟨env.probeAddr k'⟩, true)) := by
  constructor
  · simp [smith_kallsyms_lookup_name, get_kallsyms_func, hfail]
  · intro h0 haddr
    simp [smith_kallsyms_lookup_name, get_kallsyms_func, h0, haddr]

/-- C5 witness: registration attempt 0 fails (`regRet 0 = -1`), the call
returns 0 with the cache still null; attempt 1 succeeds (`regRet 1 = 0`,
probed address 5) and the retry caches it. -/
theorem C5_witness :
    smith_kallsyms_lookup_name
        ⟨fun i => if i = 0 then -1 else 0, fun _ => 5, fun a n => a + n.length⟩
        ⟨0⟩ [1] 0 = (0, ⟨0⟩, true)
    ∧ smith_kallsyms_lookup_name
        ⟨fun i => if i = 0 then -1 else 0, fun _ => 5, fun a n => a + n.length⟩
        ⟨0⟩ [1] 1 = (6, ⟨5⟩, true) := by
  have h := C5_registration_failure
    ⟨fun i => if i = 0 then -1 else 0, fun _ => 5, fun a n => a + n.length⟩
    0 1 [1] [1] (by decide)
  exact ⟨h.1, h.2 (by decide) (by decide)⟩

/-- C6: `smith_dentry_path` never returns a truncated path: every successful
return carries the complete `/name1/.../nameD` string with its NUL
terminator, and a buffer one byte too small (capacity exactly `L + d`)
returns the length-exceeded sentinel (`none`, modelling
`ERR_PTR(-ENAMETOOLONG)`). -/
theorem C6_no_partial_path (l : List (List Nat)) (buf0 bufS : List Nat)
    (hl : l ≠ []) (hS : bufS.length = needed l) :
    (∀ r b, smith_dentry_path l buf0 = some (r, b) →
      r = buf0.length - 1 - needed l ∧ b.drop r = expectedPath l ++ [0])
    ∧ smith_dentry_path l bufS = none := by
  constructor
  · intro r b hsome
    by_cases hcap : needed l + 1 ≤ buf0.length
    · obtain ⟨b0, h0, _, hdrop⟩ := smith_dentry_path_cons_ok l buf0 hl hcap
      have heq := h0.symm.trans hsome
      simp only [Option.some.injEq, Prod.mk.injEq] at heq
      obtain ⟨hr, hb⟩ := heq
      refine ⟨hr.symm, ?_⟩
      rw [← hb, ← hr]
      exact hdrop
    · rw [smith_dentry_path_cons_fail l buf0 hl (by omega)] at hsome
      exact absurd hsome (by simp)
  · exact smith_dentry_path_cons_fail l bufS hl (by omega)

/-- C6 witness: for the chain `[[97], [98]]` (path `/b/a`, `L + d = 4`),
capacity 5 returns the full string and capacity 4 (one byte short) returns
the sentinel. -/
theorem C6_witness :
    ((1 : Nat) = 1 ∧ [9, 47, 98, 47, 97, 0].drop 1 = [47, 98, 47, 97, 0])
    ∧ smith_dentry_path [[97], [98]] [9, 9, 9, 9] = none := by
  have h := C6_no_partial_path [[97], [98]] [9, 9, 9, 9, 9, 9] [9, 9, 9, 9]
    (by decide) (by decide)
  exact ⟨h.1 1 [9, 47, 98, 47, 97, 0] (by decide), h.2⟩

/-- C7: `smith_query_sb_uuid` always returns the descriptor base address plus
the build-time field offset; the result does not depend on the descriptor's
contents (two descriptors at the same base with different contents yield the
same pointer), and the function is total (no failure mode is expressible in
its type). -/
theorem C7_uuid_pure_offset (cfg : BuildConfig) (base : Nat)
    (c1 c2 : List Nat) :
    smith_query_sb_uuid cfg ⟨base, c1⟩ = base + cfg.s_uuid_offset
    ∧ smith_query_sb_uuid cfg ⟨base, c1⟩ = smith_query_sb_uuid cfg ⟨base, c2⟩ :=
  ⟨rfl, rfl⟩

/-- C8: calling `smith_dentry_path` on a root dentry (zero parent steps) with
a buffer of capacity at least 2 succeeds and returns, at offset
`capacity - 2`, the one-character string `/` followed by its NUL
terminator. -/
theorem C8_root_path (buf0 : List Nat) (h : 2 ≤ buf0.length) :
    ∃ b, smith_dentry_path [] buf0 = some (buf0.length - 2, b)
      ∧ b.length = buf0.length ∧ b.drop (buf0.length - 2) = [47, 0] :=
  smith_dentry_path_root_ok buf0 h

/-- C8 witness: a root dentry with a capacity-2 buffer yields `/` at
offset 0. -/
theorem C8_witness :
    ∃ b, smith_dentry_path [] [9, 9] = some (0, b)
      ∧ b.length = 2 ∧ b.drop 0 = [47, 0] :=
  C8_root_path [9, 9] (by decide)

/-- C9: with buffer capacity at least 1, the initial `prepend` of `"\0"`
(executed before the `buflen < 1` failure check) succeeds and stores the NUL
byte at the last buffer position `buf + capacity - 1`; and every successful
return of `smith_dentry_path` is a string that ends exactly at that reserved
tail byte (the returned offset lies before it and the final buffer still has
the NUL there), so the caller need not write a terminator. -/
theorem C9_reserved_terminator (l : List (List Nat)) (buf0 : List Nat)
    (h : 1 ≤ buf0.length) :
    ((prepend buf0 buf0.length (buf0.length : Int) [0]).err = false
      ∧ (prepend buf0 buf0.length (buf0.length : Int) [0]).buf.drop
          (buf0.length - 1) = [0])
    ∧ (∀ r b, smith_dentry_path l buf0 = some (r, b) →
        b.length = buf0.length ∧ r ≤ buf0.length - 1
          ∧ b.drop (buf0.length - 1) = [0]) := by
  have hp := prepend_ok buf0 [0] buf0.length (by simp; omega)
  constructor
  · rw [hp]
    refine ⟨rfl, ?_⟩
    show (listWrite buf0 (buf0.length - 1) [0]).drop (buf0.length - 1) = [0]
    rw [listWrite_drop buf0 [0] (buf0.length - 1) (by omega)]
    have he : buf0.length - 1 + [0].length = buf0.length := by
      simp
      omega
    rw [he, List.drop_eq_nil_of_le (by omega), List.append_nil]
  · intro r b hsome
    cases l with
    | nil =>
      by_cases hcap : 2 ≤ buf0.length
      · obtain ⟨b0, h0, hlen, hdrop⟩ := smith_dentry_path_root_ok buf0 hcap
        have heq := h0.symm.trans hsome
        simp only [Option.some.injEq, Prod.mk.injEq] at heq
        obtain ⟨hr, hb⟩ := heq
        subst hb
        refine ⟨hlen, by omega, ?_⟩
        have hd : b0.drop (buf0.length - 1) =
            (b0.drop (buf0.length - 2)).drop 1 := by
          rw [List.drop_drop]
          congr 1
          omega
        rw [hd, hdrop]
        rfl
      · rw [smith_dentry_path_root_fail buf0 (by omega)] at hsome
        exact absurd hsome (by simp)
    | cons nm rest =>
      by_cases hcap : needed (nm :: rest) + 1 ≤ buf0.length
      · obtain ⟨b0, h0, hlen, hdrop⟩ :=
          smith_dentry_path_cons_ok (nm :: rest) buf0 (by simp) hcap
        have heq := h0.symm.trans hsome
        simp only [Option.some.injEq, Prod.mk.injEq] at heq
        obtain ⟨hr, hb⟩ := heq
        subst hb
        refine ⟨hlen, by omega, ?_⟩
        have hd : b0.drop (buf0.length - 1) =
            (b0.drop (buf0.length - 1 - needed (nm :: rest))).drop
              (needed (nm :: rest)) := by
          rw [List.drop_drop]
          congr 1
          omega
        rw [hd, hdrop]
        exact List.drop_left' (expectedPath_length (nm :: rest))
      · rw [smith_dentry_path_cons_fail (nm :: rest) buf0 (by simp)
          (by omega)] at hsome
        exact absurd hsome (by simp)

/-- C9 witness: capacity-5 buffer and chain `[[102, 111, 111]]` (`/foo`): the
initial prepend writes the NUL at index 4, and the successful return ends at
that byte. -/
theorem C9_witness :
    (((prepend [9, 9, 9, 9, 9] 5 (5 : Int) [0]).err = false
      ∧ (prepend [9, 9, 9, 9, 9] 5 (5 : Int) [0]).buf.drop 4 = [0])
    ∧ (∀ r b,
        smith_dentry_path [[102, 111, 111]] [9, 9, 9, 9, 9] = some (r, b) →
        b.length = 5 ∧ r ≤ 4 ∧ b.drop 4 = [0])) :=
  C9_reserved_terminator [[102, 111, 111]] [9, 9, 9, 9, 9] (by decide)

/-- C10: for every input and every length `n ≤ 0` (negative included), the
hash loop body never runs: `hash_murmur_OAAT64` reads no bytes, behaves
exactly like the empty input, and returns the seed constant
525201411107845655. -/
theorem C10_nonpositive_length (s : List Nat) (n : Int) (h : n ≤ 0) :
    hash_murmur_OAAT64 s n = 525201411107845655
    ∧ hash_murmur_OAAT64 s n = hash_murmur_OAAT64 [] n := by
  have h0 : hash_murmur_OAAT64 s n = MURMUR_SEED := by
    unfold hash_murmur_OAAT64
    rw [Int.toNat_of_nonpos h]
    rfl
  refine ⟨h0, ?_⟩
  rw [h0]
  simp [hash_murmur_OAAT64]

/-- C10 witness: a negative length on a nonempty input returns the seed and
matches the empty input. -/
theorem C10_witness :
    hash_murmur_OAAT64 [7, 8] (-3) = 525201411107845655
    ∧ hash_murmur_OAAT64 [7, 8] (-3) = hash_murmur_OAAT64 [] (-3) :=
  C10_nonpositive_length [7, 8] (-3) (by decide)

/-- C4: two inputs of the same length that differ in exactly one byte never
hash to the same value: each loop step is a bijection of the 64-bit
accumulator (XOR with a fixed mask, multiplication by the odd constant mod
2^64, and the shift-XOR mix are all injective), so the difference introduced
at the changed byte survives to the output. -/
theorem C4_single_byte_sensitivity (pre suf : List Nat) (b1 b2 : Nat)
    (hb1 : b1 < 256) (hb2 : b2 < 256) (hne : b1 ≠ b2)
    (hsuf : ∀ b ∈ suf, b < 256) :
    hash_murmur_OAAT64 (pre ++ b1 :: suf) (((pre ++ b1 :: suf).length : Nat) : Int)
      ≠ hash_murmur_OAAT64 (pre ++ b2 :: suf) (((pre ++ b2 :: suf).length : Nat) : Int) := by
  rw [hash_full, hash_full, List.foldl_append, List.foldl_append]
  simp only [List.foldl_cons]
  have hseed : MURMUR_SEED < 2 ^ 64 := by decide
  have hh := foldl_murmur_lt pre MURMUR_SEED hseed
  exact foldl_murmur_ne suf hsuf _ _ (murmurStep_lt _ _) (murmurStep_lt _ _)
    (murmurStep_ne_of_byte_ne _ b1 b2 hh hb1 hb2 hne)

/-- C4 witness: `[1, 0, 2]` and `[1, 255, 2]` (same length, one differing
byte) hash differently. -/
theorem C4_witness :
    hash_murmur_OAAT64 [1, 0, 2] 3 ≠ hash_murmur_OAAT64 [1, 255, 2] 3 :=
  C4_single_byte_sensitivity [1] [2] 0 255 (by decide) (by decide) (by decide)
    (by decide)

end Elkeid
